import Mathlib

/-!
# Verification of the gin-gen CRUD generator (`src/main.go`)

Shallow embedding of the generator's core logic:

* the model-DSL parser (`parseModels`, Go lines 187-249),
* the inflector helpers (`toSnakeCase`, `pluralize`, Go lines 328-345),
* the project scaffolder (`generateProjectStructure` / `generateFile`,
  Go lines 252-325), with the template renderer treated as an external
  collaborator (a function from target path to rendered bytes) and Go's
  `log.Fatalf` semantics (`os.Exit`, deferred calls skipped) made explicit,
* the archive builder (`createZip`, Go lines 76-125).

Strings are modelled as `List Char` (Go iterates runes; all byte-level
operations in this program act on ASCII data).  Go's `strings.ToLower` is
modelled by the basic-latin `Char.toLower`, adequate for ASCII input; the
whitespace class of `strings.TrimSpace` / `strings.Fields` is modelled by
the ASCII space characters.
-/

namespace GinGen

/-- Strings are lists of characters. -/
abbrev Str := List Char

/-- ASCII whitespace, modelling `unicode.IsSpace` on the ASCII range
(space, tab, newline, vertical tab, form feed, carriage return). -/
def isWs (c : Char) : Bool :=
  c = ' ' || c = '\t' || c = '\n' || c = '\x0b' || c = '\x0c' || c = '\r'

/-- `strings.TrimSpace`: drop whitespace from both ends. -/
def trimSpace (s : Str) : Str :=
  ((s.dropWhile isWs).reverse.dropWhile isWs).reverse

/-- Accumulator loop for `fields`: `cur` is the word in progress,
reversed. -/
def fieldsGo : Str → Str → List Str
  | cur, [] => if cur = [] then [] else [cur.reverse]
  | cur, c :: rest =>
    if isWs c then
      if cur = [] then fieldsGo [] rest else cur.reverse :: fieldsGo [] rest
    else fieldsGo (c :: cur) rest

/-- `strings.Fields`: split around runs of whitespace, no empty tokens. -/
def fields (s : Str) : List Str := fieldsGo [] s

/-- `strings.Split(s, "\n")`. -/
def splitLines : Str → List Str
  | [] => [[]]
  | '\n' :: rest => [] :: splitLines rest
  | c :: rest =>
    match splitLines rest with
    | r :: rs => (c :: r) :: rs
    | [] => [[c]]

/-- `strings.Split(s, "\n\n")` (Go line 189): left-to-right,
non-overlapping occurrences of the two-character separator. -/
def splitBlocks : Str → List Str
  | '\n' :: '\n' :: rest => [] :: splitBlocks rest
  | c :: rest =>
    match splitBlocks rest with
    | r :: rs => (c :: r) :: rs
    | [] => [[c]]
  | [] => [[]]

/-- `strings.ToLower`, on the basic-latin range (see file header). -/
def toLowerStr (s : Str) : Str := s.map Char.toLower

/-- The test `'A' <= c && c <= 'Z'` of Go line 331.  Go compares runes
numerically; `'A' = 65` and `'Z' = 90`. -/
def isUpAZ (c : Char) : Bool := decide (65 ≤ c.toNat ∧ c.toNat ≤ 90)

/-- The tail of the snake-case conversion (Go lines 330-335): every
uppercase ASCII letter at index `i > 0` is preceded by an underscore. -/
def snakeRest : Str → Str
  | [] => []
  | c :: rest =>
    (if isUpAZ c then ['_', c] else [c]) ++ snakeRest rest

/-- `toSnakeCase` (Go lines 328-337): insert `_` before every uppercase
letter except at index 0, then lowercase the whole result. -/
def toSnakeCase (s : Str) : Str :=
  (match s with
   | [] => []
   | c :: rest => c :: snakeRest rest).map Char.toLower

/-- `pluralize` (Go lines 340-345): `y`-ending words get `ies`,
everything else gets `s`. -/
def pluralize (s : Str) : Str :=
  if ['y'] <:+ s then s.dropLast ++ ('i' :: 'e' :: 's' :: [])
  else s ++ ['s']

/-- `strings.ToLower(name[:1]) + name[1:]` (Go line 243): lowercase the
first character only.  Total here; the parser embedding flags the empty
case (where the Go expression panics) separately. -/
def lowerFirst : Str → Str
  | [] => []
  | c :: rest => Char.toLower c :: rest

/-- A parsed model field (Go struct `ModelField`, lines 27-33).
`Ty` stands for the Go field `Type` (a reserved word in Lean). -/
structure ModelField where
  Name : Str
  Ty : Str
  JsonTag : Str
  GormTag : Str
  Required : Bool
deriving DecidableEq, Repr

/-- A parsed model (Go struct `Model`, lines 36-42). -/
structure Model where
  Name : Str
  Fields : List ModelField
  SnakeName : Str
  LowerName : Str
  PluralName : Str
deriving DecidableEq, Repr

/-- The cutset `"gorm:\""` of the `strings.Trim` call on Go line 220:
the character set {g, o, r, m, colon, double quote}. -/
def gormCut : Str := "gorm:\"".data

/-- `strings.Trim(s, cutset)`: remove all leading and trailing characters
that belong to the cutset (a character-set trim, not a prefix trim). -/
def goTrim (cut : Str) (s : Str) : Str :=
  ((s.dropWhile cut.contains).reverse.dropWhile cut.contains).reverse

/-- The body of the field-line loop (Go lines 206-236) after the line has
been trimmed: lines with fewer than two tokens yield no field; the gorm
tag is the cutset-trim of the last `gorm:`-prefixed token among the
tokens after name and type, defaulting to `column:<snake(name)>` when
absent or when the trim comes out empty. -/
def parseFieldLine (line : Str) : Option ModelField :=
  match fields line with
  | p0 :: p1 :: rest =>
    let gTag := rest.foldl
      (fun acc t => if "gorm:".data.isPrefixOf t then goTrim gormCut t else acc) []
    let gTag := if gTag = [] then "column:".data ++ toSnakeCase p0 else gTag
    some { Name := p0, Ty := p1, JsonTag := toLowerStr p0, GormTag := gTag,
           Required := decide ("required".data <:+: line) }
  | _ => none

/-- One iteration of the field loop on a raw (untrimmed) line
(Go lines 200-209): trim, skip if empty, then parse. -/
def lineToField (l : Str) : Option ModelField :=
  let t := trimSpace l
  if t = [] then none else parseFieldLine t

/-- Result of processing one definition block (Go lines 191-246). -/
inductive BlockResult where
  /-- Block had fewer than two lines: silently discarded. -/
  | skip
  /-- Block reached Go line 243 with an empty model name: the slice
  expression `modelName[:1]` panics (slice bounds out of range). -/
  | panic
  /-- Block produced a model. -/
  | model (m : Model)
deriving DecidableEq, Repr

/-- The `Model` literal built at Go lines 239-245: fields are the
in-order field lines that survive the loop; the derived names are pure
functions of the (trimmed) model name. -/
def mkBlockModel (modelName : Str) (fieldLines : List Str) : Model :=
  { Name := modelName, Fields := fieldLines.filterMap lineToField,
    SnakeName := toSnakeCase modelName, LowerName := lowerFirst modelName,
    PluralName := pluralize modelName }

/-- Process one definition block (Go lines 191-246).  Go builds the field
slice first and panics only when constructing the `Model` literal; since
field parsing is pure, the panic test is hoisted before the record here. -/
def parseBlock (block : Str) : BlockResult :=
  match splitLines block with
  | l0 :: l1 :: rest =>
    let modelName := trimSpace l0
    if modelName = [] then .panic
    else .model (mkBlockModel modelName (l1 :: rest))
  | _ => .skip

/-- Fold the block results in order; a panic aborts the whole call
(`none`); skipped blocks contribute nothing. -/
def parseBlocks : List Str → Option (List Model)
  | [] => some []
  | b :: bs =>
    match parseBlock b with
    | .skip => parseBlocks bs
    | .panic => none
    | .model m => (parseBlocks bs).map (m :: ·)

/-- `parseModels` (Go lines 187-249).  `none` models a runtime panic;
`some ms` is normal completion with the model slice `ms`. -/
def parseModels (input : Str) : Option (List Model) :=
  parseBlocks (splitBlocks input)

/-- Projection of a block result onto its model, if any. -/
def resultModel? : BlockResult → Option Model
  | .model m => some m
  | _ => none

/-! ## Path cleaning (`filepath.Join`, Go line 309)

`generateFile` computes `path := filepath.Join(baseDir, filePath)`, and
`filepath.Join` *cleans* the joined path: repeated separators and `.`
components vanish and a `..` component removes the component before it.
Model names are user input and flow verbatim into the snake name and
the per-model paths, so two raw paths that clean to the same file are
the same file on disk.  `baseDir` is an absolute temporary directory;
a path whose `..` components climb above the staging root resolves into
the temporary directory's own (unknown) parent — the write then lands
outside the staging tree and is never archived or cleaned up with it. -/

/-- Split a path into its `/`-separated components. -/
def splitSlash : Str → List Str
  | [] => [[]]
  | c :: rest =>
    if c = '/' then [] :: splitSlash rest
    else
      match splitSlash rest with
      | r :: rs => (c :: r) :: rs
      | [] => [[c]]

/-- Join components with `/`. -/
def joinSlash : List Str → Str
  | [] => []
  | [c] => c
  | c :: rest => c ++ '/' :: joinSlash rest

/-- `filepath.Clean` over the components of a path relative to the
absolute staging root, as a stack: empty and `.` components vanish,
`..` pops the previous component, and `..` with an empty stack climbs
above the staging root (`none`: the target lies outside the tree). -/
def cleanRel : List Str → List Str → Option (List Str)
  | stack, [] => some stack.reverse
  | stack, comp :: rest =>
    if comp = [] ∨ comp = ['.'] then cleanRel stack rest
    else if comp = ['.', '.'] then
      match stack with
      | [] => none
      | _ :: stack2 => cleanRel stack2 rest
    else cleanRel (comp :: stack) rest

/-- The root-relative path actually written by
`filepath.Join(baseDir, p)` (Go line 309): the cleaned form of `p`, or
`none` when the cleaned path escapes the staging root. -/
def joinClean (p : Str) : Option Str :=
  (cleanRel [] (splitSlash p)).map joinSlash

/-! ## Scaffolder embedding (Go lines 252-325 and the handler 140-179)

The template renderer is the external collaborator of spec section 4.4:
for one fixed request the rendered bytes are a function of the target
path, so it is modelled as `render : Str → Option Str` (`none` is a
template parse/execute failure) together with `writeOk` for
`os.WriteFile` failures.  Go's `log.Fatalf` calls `os.Exit(1)`, which
terminates the process immediately and does **not** run deferred calls;
`GenOutcome.fatal` models that exit. -/

/-- The ten fixed project-level files (Go lines 272-283).  Go ranges over
a map, so the write order among them is unspecified; the set of paths is
what matters, and this list fixes the source-listing order. -/
def projPaths : List Str :=
  ["cmd/main.go".data, "pkg/config/config.go".data,
   "pkg/database/database.go".data, "pkg/api/server.go".data,
   "pkg/middlewares/logger.go".data, ".env".data, "go.mod".data,
   "README.md".data, "Dockerfile".data, ".gitignore".data]

/-- The three per-model files (Go lines 287-291): data-model source,
request-handler source and API-spec document, at paths derived from the
model's snake name. -/
def modelFiles (m : Model) : List Str :=
  ["pkg/models/".data ++ (m.SnakeName ++ ".go".data),
   "pkg/handlers/".data ++ (m.SnakeName ++ ".go".data),
   "api/".data ++ (m.SnakeName ++ ".yaml".data)]

/-- Per-model write targets, in input model order (Go lines 286-299). -/
def modelWrites : List Model → List Str
  | [] => []
  | m :: ms => modelFiles m ++ modelWrites ms

/-- All write targets of one request: per-model files first
(Go lines 286-299), then the fixed files (Go lines 302-304). -/
def allWrites (ms : List Model) : List Str := modelWrites ms ++ projPaths

/-- Renderer / filesystem boundary for one request. -/
structure RenderEnv where
  render : Str → Option Str
  writeOk : Str → Bool

/-- Outcome of a code path that may call `log.Fatalf`: `fatal` is
`os.Exit(1)` — the process terminates, deferred calls do not run. -/
inductive GenOutcome (α : Type) where
  | ok (a : α)
  | fatal
deriving DecidableEq

/-- The staging tree as an association list keyed by *cleaned*
root-relative path; writing an existing path overwrites its contents, a
new path is appended. -/
def fsWrite (fs : List (Str × Str)) (p c : Str) : List (Str × Str) :=
  if p ∈ fs.map Prod.fst then
    fs.map (fun e => if e.1 = p then (p, c) else e)
  else fs ++ [(p, c)]

/-- `generateFile` (Go lines 308-325): render the template for target
`p`, then write the file at `filepath.Join(baseDir, p)` — i.e. at the
*cleaned* path, so raw targets that clean to the same path overwrite the
same file; a write whose cleaned path escapes the staging root (the
`os.MkdirAll` of line 310 creates its directories) leaves the staging
tree unchanged.  Either render or write failure is `log.Fatalf`, i.e. a
process exit. -/
def generateFile (env : RenderEnv) (fs : List (Str × Str)) (p : Str) :
    GenOutcome (List (Str × Str)) :=
  match env.render p with
  | none => .fatal
  | some content =>
    if env.writeOk p then
      .ok (match joinClean p with
           | some q => fsWrite fs q content
           | none => fs)
    else .fatal

/-- Write a list of targets in order; a fatal outcome aborts the rest. -/
def writeSeq (env : RenderEnv) : List Str → List (Str × Str) →
    GenOutcome (List (Str × Str))
  | [], fs => .ok fs
  | p :: ps, fs =>
    match generateFile env fs p with
    | .fatal => .fatal
    | .ok fs2 => writeSeq env ps fs2

/-- `generateProjectStructure` (Go lines 252-305): materialise every
write target into the fresh staging tree.  (The `os.MkdirAll` calls
carry no data and their errors are ignored by the code.) -/
def generateProjectStructure (env : RenderEnv) (ms : List Model) :
    GenOutcome (List (Str × Str)) :=
  writeSeq env (allWrites ms) []

/-- Response of a request that did answer. -/
inductive GenResponse where
  /-- The structured zip-failure JSON of Go lines 170-171. -/
  | errorJson
  /-- The archive download of Go lines 175-178, carrying the staged
  files that were zipped. -/
  | download (fs : List (Str × Str))
deriving DecidableEq

/-- Observable outcome of one `/generate` request.  `response = none`
means the process died before responding. -/
structure HandlerResult where
  processAlive : Bool
  tempDirRemoved : Bool
  response : Option GenResponse
deriving DecidableEq

/-- The `/generate` handler after parsing (Go lines 157-178).
`defer os.RemoveAll(tempDir)` (line 162) runs on every normal return —
both the zip-failure response and the download — but `log.Fatalf` inside
`generateFile` calls `os.Exit`, which skips deferred calls: the staging
tree survives and no response is sent.  `zipOk` abstracts the
`createZip` call of line 169. -/
def handleGenerate (env : RenderEnv) (zipOk : Bool) (ms : List Model) :
    HandlerResult :=
  match generateProjectStructure env ms with
  | .fatal => { processAlive := false, tempDirRemoved := false,
                response := none }
  | .ok fs =>
    if zipOk then
      { processAlive := true, tempDirRemoved := true,
        response := some (.download fs) }
    else
      { processAlive := true, tempDirRemoved := true,
        response := some .errorJson }

/-- An environment where every render and write succeeds. -/
def pureEnv (render : Str → Str) : RenderEnv :=
  { render := fun p => some (render p), writeOk := fun _ => true }

/-- All-success environment with a fixed one-byte body. -/
def envAllOk : RenderEnv := pureEnv (fun _ => ['x'])

/-- Environment whose write of `cmd/main.go` fails (e.g. disk full). -/
def envWriteFail : RenderEnv :=
  { render := fun _ => some ['x'],
    writeOk := fun p => decide (p ≠ "cmd/main.go".data) }

/-- Environment whose render of `go.mod` fails. -/
def envRenderFail : RenderEnv :=
  { render := fun p => if p = "go.mod".data then none else some ['x'],
    writeOk := fun _ => true }

/-- Size of the staged tree, when the scaffold completed. -/
def outcomeSize : GenOutcome (List (Str × Str)) → Option Nat
  | .ok fs => some fs.length
  | .fatal => none

/-! ## Archive builder embedding (`createZip`, Go lines 76-125)

`filepath.Walk` visits the tree in lexical order; the children lists are
taken as already lexically ordered.  Directories contribute no entry
(Go lines 92-94); a regular file contributes one entry whose name is the
root-relative path normalized to forward slashes (Go lines 97-106) and
whose contents are the file's bytes copied verbatim (Go line 122).  Any
error — walking a directory, creating the header/entry, opening or
copying a file — is returned and aborts the walk (Go returns the error
from the walk callback).  `ioOk = false` injects such a failure at a
node.  The initial `os.Create` of the target archive (Go line 77) is the
`createOk` flag. -/

/-- A node of the finished staging tree. -/
inductive FSNode where
  | file (name : Str) (data : Str) (ioOk : Bool)
  | dir (name : Str) (children : List FSNode) (ioOk : Bool)

mutual

/-- Walk one node: files yield one entry, directories yield none and
recurse; a failed node aborts with an error. -/
def walkNode (pre : Str) : FSNode → Except Unit (List (Str × Str))
  | .file n d ok => if ok then .ok [(pre ++ n, d)] else .error ()
  | .dir n cs ok => if ok then walkList (pre ++ n ++ ['/']) cs else .error ()

/-- Walk a sibling list in order, stopping at the first error. -/
def walkList (pre : Str) : List FSNode → Except Unit (List (Str × Str))
  | [] => .ok []
  | nd :: ns =>
    match walkNode pre nd with
    | .error e => .error e
    | .ok es =>
      match walkList pre ns with
      | .error e => .error e
      | .ok rest => .ok (es ++ rest)

end

/-- `createZip` (Go lines 76-125), applied to the children of the
staging root (the root directory itself is skipped as a directory).  The
produced value is the archive's entry list, `name ↦ bytes`. -/
def createZip (createOk : Bool) (roots : List FSNode) :
    Except Unit (List (Str × Str)) :=
  if createOk then walkList [] roots else .error ()

mutual

/-- The regular files under a node: root-relative slash-joined path and
verbatim contents.  This is the specification-side collector. -/
def filesOfNode (pre : Str) : FSNode → List (Str × Str)
  | .file n d _ => [(pre ++ n, d)]
  | .dir n cs _ => filesOfList (pre ++ n ++ ['/']) cs

/-- The regular files under a sibling list, in walk order. -/
def filesOfList (pre : Str) : List FSNode → List (Str × Str)
  | [] => []
  | nd :: ns => filesOfNode pre nd ++ filesOfList pre ns

end

mutual

/-- No injected I/O failure anywhere under the node. -/
def noErrNode : FSNode → Bool
  | .file _ _ ok => ok
  | .dir _ cs ok => ok && noErrList cs

/-- No injected I/O failure anywhere under the sibling list. -/
def noErrList : List FSNode → Bool
  | [] => true
  | nd :: ns => noErrNode nd && noErrList ns

end

/-! ## Facts about `Char.toLower` on the basic-latin range -/

theorem toNat_ofNat_valid (n : Nat) (h : n < 0xd800) :
    (Char.ofNat n).toNat = n := by
  rw [Char.ofNat, dif_pos (Or.inl h)]
  rfl

theorem toLower_eq_of_not_up {c : Char} (h : isUpAZ c = false) :
    c.toLower = c := by
  unfold Char.toLower
  simp only [isUpAZ, decide_eq_false_iff_not] at h
  rw [if_neg h]

theorem toNat_toLower_of_up {c : Char} (h : isUpAZ c = true) :
    c.toLower.toNat = c.toNat + 32 := by
  simp only [isUpAZ, decide_eq_true_eq] at h
  unfold Char.toLower
  rw [if_pos h]
  exact toNat_ofNat_valid _ (by omega)

theorem isUpAZ_toLower (c : Char) : isUpAZ c.toLower = false := by
  cases hu : isUpAZ c with
  | false => rw [toLower_eq_of_not_up hu]; exact hu
  | true =>
    have h2 := toNat_toLower_of_up hu
    simp only [isUpAZ, decide_eq_true_eq] at hu
    simp only [isUpAZ, decide_eq_false_iff_not, h2]
    omega

theorem toLower_idem (c : Char) : c.toLower.toLower = c.toLower :=
  toLower_eq_of_not_up (isUpAZ_toLower c)

/-! ## Whitespace decomposition and invariance lemmas -/

/-- Every string splits as all-whitespace prefix, its trim, and an
all-whitespace suffix. -/
theorem trim_decomp (l : Str) :
    ∃ a b, l = (a ++ trimSpace l) ++ b ∧
      (∀ c ∈ a, isWs c = true) ∧ (∀ c ∈ b, isWs c = true) := by
  refine ⟨l.takeWhile isWs,
    ((l.dropWhile isWs).reverse.takeWhile isWs).reverse, ?_, ?_, ?_⟩
  · have hd : l.dropWhile isWs =
        trimSpace l ++ ((l.dropWhile isWs).reverse.takeWhile isWs).reverse := by
      conv_lhs => rw [← List.reverse_reverse (l.dropWhile isWs),
        ← List.takeWhile_append_dropWhile (p := isWs)
          (l := (l.dropWhile isWs).reverse)]
      rw [List.reverse_append]
      rfl
    conv_lhs => rw [← List.takeWhile_append_dropWhile (p := isWs) (l := l), hd]
    rw [List.append_assoc]
  · exact fun c hc => List.mem_takeWhile_imp hc
  · exact fun c hc => List.mem_takeWhile_imp (List.mem_reverse.mp hc)

theorem fieldsGo_all_ws {b : Str} (hb : ∀ c ∈ b, isWs c = true) :
    ∀ cur : Str, fieldsGo cur b = if cur = [] then [] else [cur.reverse] := by
  induction b with
  | nil => intro cur; rfl
  | cons w b' ih =>
    intro cur
    have hw := hb w (List.mem_cons_self w b')
    have ih' := ih fun c hc => hb c (List.mem_cons_of_mem w hc)
    by_cases hc : cur = [] <;> simp [fieldsGo, hw, hc, ih']

theorem fieldsGo_append_all_ws {b : Str} (hb : ∀ c ∈ b, isWs c = true) :
    ∀ (l : Str) (cur : Str), fieldsGo cur (l ++ b) = fieldsGo cur l := by
  intro l
  induction l with
  | nil =>
    intro cur
    rw [List.nil_append, fieldsGo_all_ws hb]
    rfl
  | cons c l' ih =>
    intro cur
    cases hcw : isWs c <;> by_cases hc : cur = [] <;>
      simp [fieldsGo, hcw, hc, ih]

/-- Appending trailing whitespace does not change the token list. -/
theorem fields_append_ws {l b : Str} (hb : ∀ c ∈ b, isWs c = true) :
    fields (l ++ b) = fields l :=
  fieldsGo_append_all_ws hb l []

/-- Leading whitespace does not change the token list. -/
theorem fields_prepend_ws {a : Str} (ha : ∀ c ∈ a, isWs c = true) :
    ∀ l : Str, fields (a ++ l) = fields l := by
  induction a with
  | nil => intro l; rfl
  | cons c a' ih =>
    intro l
    have hc := ha c (List.mem_cons_self c a')
    have := ih (fun d hd => ha d (List.mem_cons_of_mem c hd)) l
    simpa [fields, fieldsGo, hc] using this

/-- Trimming does not change the token list: the tokens of a field line
are the same whether computed on the raw or the trimmed line. -/
theorem fields_trimSpace (l : Str) : fields (trimSpace l) = fields l := by
  obtain ⟨a, b, hl, ha, hb⟩ := trim_decomp l
  conv_rhs => rw [hl, fields_append_ws hb, fields_prepend_ws ha]

theorem infix_drop_ws_left {p : Str} (hp : ∀ c ∈ p, isWs c = false) :
    ∀ {a t : Str}, (∀ c ∈ a, isWs c = true) → p <:+: a ++ t → p <:+: t := by
  intro a
  induction a with
  | nil => intro t _ h; simpa using h
  | cons c a' ih =>
    intro t ha h
    rcases List.infix_cons_iff.mp h with hpre | hinf
    · cases p with
      | nil => exact List.nil_infix
      | cons d p' =>
        rcases List.cons_prefix_cons.mp hpre with ⟨rfl, _⟩
        have h1 := hp d (List.mem_cons_self d p')
        have h2 := ha d (List.mem_cons_self d a')
        rw [h1] at h2
        exact absurd h2 (by simp)
    · exact ih (fun d hd => ha d (List.mem_cons_of_mem c hd)) hinf

theorem infix_drop_ws_right {p : Str} (hp : ∀ c ∈ p, isWs c = false)
    {t b : Str} (hb : ∀ c ∈ b, isWs c = true) (h : p <:+: t ++ b) :
    p <:+: t := by
  have h' : p.reverse <:+: b.reverse ++ t.reverse := by
    rw [← List.reverse_append]
    exact List.reverse_infix.mpr h
  have h2 := infix_drop_ws_left (p := p.reverse)
    (fun c hc => hp c (List.mem_reverse.mp hc))
    (fun c hc => hb c (List.mem_reverse.mp hc)) h'
  exact List.reverse_infix.mp h2

/-- A pattern with no whitespace characters occurs in a line iff it
occurs in the trimmed line. -/
theorem infix_trimSpace_iff {p : Str} (hp : ∀ c ∈ p, isWs c = false)
    (l : Str) : p <:+: trimSpace l ↔ p <:+: l := by
  obtain ⟨a, b, hl, ha, hb⟩ := trim_decomp l
  constructor
  · intro h
    rw [hl]
    exact h.trans (List.infix_append a (trimSpace l) b)
  · intro h
    rw [hl] at h
    exact infix_drop_ws_left hp ha (infix_drop_ws_right hp hb h)

/-! ## C1: the parser panics on a block with an empty model name -/

/-- C1 (code bug).  The claim says `parseModels` never raises an error and
in particular handles an empty model name without indexing into an empty
string.  The code does the opposite: on the input `"\nName string"` —
a single definition block of two lines whose first line is empty — Go
line 243 evaluates `modelName[:1]` with `modelName = ""` and panics with
a slice-bounds error.  In the embedding the panic is the `none` result. -/
theorem parseModels_panics_on_empty_model_name :
    splitBlocks "\nName string".data = ["\nName string".data] ∧
    (splitLines "\nName string".data).length = 2 ∧
    trimSpace (splitLines "\nName string".data).headI = [] ∧
    parseModels "\nName string".data = none := by
  refine ⟨by decide, by decide, by decide, by decide⟩

/-! ## C8: the required flag is substring search on the field line -/

/-- C8 (confirmed).  First conjunct: for every raw field line that
produces a `ModelField`, the `Required` flag is true exactly when the
literal `"required"` occurs anywhere in the raw line (the code tests the
trimmed line, which is equivalent since the pattern contains no
whitespace).  Remaining conjuncts: the spec's Scenario 1, the fields in
source order with their required flags. -/
theorem required_flag_iff_raw_substring :
    (∀ l f, lineToField l = some f →
      (f.Required = true ↔ "required".data <:+: l)) ∧
    (parseModels "User\nName string required\nAge int".data).map
        (fun ms => ms.map fun m => m.Name) = some ["User".data] ∧
    (parseModels "User\nName string required\nAge int".data).map
        (fun ms => ms.map fun m => m.Fields.map fun fl => (fl.Name, fl.Ty)) =
      some [[("Name".data, "string".data), ("Age".data, "int".data)]] ∧
    (parseModels "User\nName string required\nAge int".data).map
        (fun ms => ms.map fun m => m.Fields.map fun fl => fl.Required) =
      some [[true, false]] := by
  refine ⟨?_, by decide, by decide, by decide⟩
  · intro l f hf
    have hreq : ∀ c ∈ "required".data, isWs c = false := by decide
    unfold lineToField at hf
    by_cases ht : trimSpace l = []
    · rw [if_pos ht] at hf
      exact absurd hf (by simp)
    · rw [if_neg ht] at hf
      unfold parseFieldLine at hf
      rcases hfs : fields (trimSpace l) with _ | ⟨p0, _ | ⟨p1, rest⟩⟩ <;>
        rw [hfs] at hf
      · exact absurd hf (by simp)
      · exact absurd hf (by simp)
      · have hrec := Option.some.inj hf
        rw [← hrec]
        simp only [decide_eq_true_eq]
        exact infix_trimSpace_iff hreq l

/-- Witness for C8: the first conjunct applied to the concrete line
`"Name string required"`. -/
theorem required_flag_iff_raw_substring_witness :
    lineToField "Name string required".data = some
      { Name := "Name".data, Ty := "string".data, JsonTag := "name".data,
        GormTag := "column:name".data, Required := true } ∧
    (({ Name := "Name".data, Ty := "string".data, JsonTag := "name".data,
        GormTag := "column:name".data, Required := true } : ModelField).Required
        = true ↔ "required".data <:+: "Name string required".data) :=
  ⟨by decide, required_flag_iff_raw_substring.1 "Name string required".data
    { Name := "Name".data, Ty := "string".data, JsonTag := "name".data,
      GormTag := "column:name".data, Required := true } (by decide)⟩

/-! ## C2: the gorm-tag extraction -/

theorem getLast?_cons_eq {α : Type} :
    ∀ (L : List α) (a : α), (a :: L).getLast? = some (L.getLast?.getD a)
  | [], _ => rfl
  | b :: L', a => by
    rw [List.getLast?_cons_cons, getLast?_cons_eq L' b]
    simp

/-- A left fold that overwrites its accumulator at every element
satisfying `p` computes `g` of the last such element. -/
theorem foldl_overwrite {α β : Type} (g : α → β) (p : α → Bool) :
    ∀ (ts : List α) (acc : β),
      ts.foldl (fun a t => if p t then g t else a) acc =
        match (ts.filter p).getLast? with
        | some t => g t
        | none => acc := by
  intro ts
  induction ts with
  | nil => intro acc; rfl
  | cons t ts ih =>
    intro acc
    by_cases hp : p t
    · rw [List.foldl_cons, if_pos hp, ih, List.filter_cons_of_pos hp,
        getLast?_cons_eq]
      cases h : (ts.filter p).getLast? <;> simp [h]
    · rw [List.foldl_cons, if_neg hp, ih, List.filter_cons_of_neg hp]

/-- C2 (counterexample).  The claim predicts that the gorm hint value is
obtained by prefix-and-quote trimming only, leaving the interior value
intact: for the token `gorm:"column:foo"` it predicts `column:foo`.  The
code uses `strings.Trim(tag, "gorm:\"")`, a character-set trim, which
also eats the trailing `o`, `o` (both in the cutset), yielding
`column:f`. -/
theorem gorm_tag_cutset_counterexample :
    (((fields "Name string gorm:\"column:foo\"".data).drop 2).filter
        (fun tok => "gorm:".data.isPrefixOf tok)).getLast? =
      some "gorm:\"column:foo\"".data ∧
    (parseModels "M\nName string gorm:\"column:foo\"".data).map
        (fun ms => ms.map fun m => m.Fields.map fun f => f.GormTag) =
      some [["column:f".data]] ∧
    "column:f".data ≠ "column:foo".data := by
  exact ⟨by decide, by decide, by decide⟩

/-- C2 (amended).  For every field line whose tokens after the first two
contain at least one `gorm:`-prefixed token, the persistence tag is the
last such token trimmed of all leading and trailing characters from the
character set {g, o, r, m, `:`, `"`} (Go `strings.Trim` with cutset
`"gorm:\""`), falling back to the default `column:<snake(name)>` when
that trim comes out empty; earlier gorm tokens are overwritten. -/
theorem gorm_tag_last_token_cutset_trim :
    ∀ l f t, lineToField l = some f →
      (((fields l).drop 2).filter
        (fun tok => "gorm:".data.isPrefixOf tok)).getLast? = some t →
      f.GormTag = if goTrim gormCut t = []
        then "column:".data ++ toSnakeCase f.Name
        else goTrim gormCut t := by
  intro l f t hf hlast
  unfold lineToField at hf
  by_cases ht : trimSpace l = []
  · rw [if_pos ht] at hf
    exact absurd hf (by simp)
  · rw [if_neg ht] at hf
    unfold parseFieldLine at hf
    rcases hfs : fields (trimSpace l) with _ | ⟨p0, _ | ⟨p1, rest⟩⟩ <;>
      rw [hfs] at hf
    · exact absurd hf (by simp)
    · exact absurd hf (by simp)
    · have hdrop : (fields l).drop 2 = rest := by
        rw [← fields_trimSpace l, hfs]
        rfl
      rw [hdrop] at hlast
      have hrec := Option.some.inj hf
      have hfold := foldl_overwrite (goTrim gormCut)
        (fun tok => "gorm:".data.isPrefixOf tok) rest []
      rw [hlast] at hfold
      rw [← hrec]
      simp only [hfold]

/-- Witness for C2's amended theorem: a line with two gorm tokens; the
last one wins and its cutset-trim is the stored tag. -/
theorem gorm_tag_last_token_cutset_trim_witness :
    lineToField "Age int gorm:\"index\" gorm:\"column:age_col\"".data = some
      { Name := "Age".data, Ty := "int".data, JsonTag := "age".data,
        GormTag := "column:age_col".data, Required := false } ∧
    (((fields "Age int gorm:\"index\" gorm:\"column:age_col\"".data).drop 2).filter
        (fun tok => "gorm:".data.isPrefixOf tok)).getLast? =
      some "gorm:\"column:age_col\"".data ∧
    ({ Name := "Age".data, Ty := "int".data, JsonTag := "age".data,
        GormTag := "column:age_col".data, Required := false } : ModelField).GormTag
      = if goTrim gormCut "gorm:\"column:age_col\"".data = []
        then "column:".data ++ toSnakeCase ("Age".data)
        else goTrim gormCut "gorm:\"column:age_col\"".data :=
  ⟨by decide, by decide,
    gorm_tag_last_token_cutset_trim
      "Age int gorm:\"index\" gorm:\"column:age_col\"".data
      { Name := "Age".data, Ty := "int".data, JsonTag := "age".data,
        GormTag := "column:age_col".data, Required := false }
      "gorm:\"column:age_col\"".data (by decide) (by decide)⟩

/-! ## C7: one model per block with at least two lines -/

/-- A raw field line contributes a `ModelField` exactly when it has at
least two whitespace-separated tokens. -/
theorem lineToField_isSome (l : Str) :
    (lineToField l).isSome = decide (2 ≤ (fields l).length) := by
  unfold lineToField
  by_cases ht : trimSpace l = []
  · rw [if_pos ht, ← fields_trimSpace l, ht]
    rfl
  · rw [if_neg ht]
    unfold parseFieldLine
    rw [← fields_trimSpace l]
    rcases fields (trimSpace l) with _ | ⟨p0, _ | ⟨p1, rest⟩⟩ <;> simp

/-- Unfolding of `parseBlock` on a block with at least two lines. -/
theorem parseBlock_two_lines {b l0 l1 : Str} {rest : List Str}
    (hsl : splitLines b = l0 :: l1 :: rest) :
    parseBlock b = if trimSpace l0 = [] then .panic
      else .model (mkBlockModel (trimSpace l0) (l1 :: rest)) := by
  unfold parseBlock
  rw [hsl]

/-- A block with fewer than two lines is skipped. -/
theorem parseBlock_short {b : Str}
    (h : splitLines b = [] ∨ ∃ l0, splitLines b = [l0]) :
    parseBlock b = .skip := by
  unfold parseBlock
  rcases h with h | ⟨l0, h⟩ <;> rw [h]

/-- C7 (counterexample).  The claim says every definition block with two
or more lines yields exactly one Model, with no error.  The input
`"\nAge int"` is a single block of two lines, yet `parseModels` panics
(empty model name, Go line 243) and returns no model at all. -/
theorem two_line_block_without_model :
    splitBlocks "\nAge int".data = ["\nAge int".data] ∧
    (splitLines "\nAge int".data).length = 2 ∧
    parseModels "\nAge int".data = none :=
  ⟨by decide, by decide, by decide⟩

/-- C7 (amended).  Conjunct 1: a block panics exactly when it has at
least two lines and an empty (trimmed) first line.  Conjunct 2: a block
with fewer than two lines is silently skipped.  Conjunct 3: a block with
at least two lines and a non-empty model name yields exactly one model
whose name is the trimmed first line, whose fields are the in-order
field lines, and whose field count is the number of field lines with at
least two whitespace-separated tokens.  Conjunct 4: when no block
panics, the output is the models of the blocks in block order. -/
theorem parse_one_model_per_block :
    (∀ b : Str, parseBlock b = .panic ↔
      2 ≤ (splitLines b).length ∧ trimSpace (splitLines b).headI = []) ∧
    (∀ b : Str, (splitLines b).length < 2 → parseBlock b = .skip) ∧
    (∀ b : Str, 2 ≤ (splitLines b).length →
      trimSpace (splitLines b).headI ≠ [] →
      (resultModel? (parseBlock b)).map (fun m => (m.Name, m.Fields)) =
        some (trimSpace (splitLines b).headI,
          (splitLines b).tail.filterMap lineToField) ∧
      (resultModel? (parseBlock b)).map (fun m => m.Fields.length) =
        some ((splitLines b).tail.countP
          (fun l => decide (2 ≤ (fields l).length)))) ∧
    (∀ input : Str, (∀ b ∈ splitBlocks input, parseBlock b ≠ .panic) →
      parseModels input =
        some ((splitBlocks input).filterMap
          (fun b => resultModel? (parseBlock b)))) := by
  have hcount : ∀ tail : List Str,
      (tail.filterMap lineToField).length =
        tail.countP (fun l => decide (2 ≤ (fields l).length)) := by
    intro tail
    rw [List.length_filterMap_eq_countP]
    exact List.countP_congr fun l _ => by
      rw [lineToField_isSome l]
  refine ⟨?_, ?_, ?_, ?_⟩
  · intro b
    rcases hsl : splitLines b with _ | ⟨l0, _ | ⟨l1, rest⟩⟩
    · rw [parseBlock_short (Or.inl hsl)]
      simp
    · rw [parseBlock_short (Or.inr ⟨l0, hsl⟩)]
      simp
    · rw [parseBlock_two_lines hsl]
      by_cases h0 : trimSpace l0 = [] <;> simp [h0, List.headI]
  · intro b hlen
    rcases hsl : splitLines b with _ | ⟨l0, _ | ⟨l1, rest⟩⟩
    · exact parseBlock_short (Or.inl hsl)
    · exact parseBlock_short (Or.inr ⟨l0, hsl⟩)
    · rw [hsl] at hlen
      simp only [List.length_cons] at hlen
      omega
  · intro b hlen hname
    rcases hsl : splitLines b with _ | ⟨l0, _ | ⟨l1, rest⟩⟩
    · rw [hsl] at hlen
      simp at hlen
    · rw [hsl] at hlen
      simp at hlen
    · rw [hsl] at hname
      simp only [List.headI] at hname
      rw [parseBlock_two_lines hsl, if_neg hname]
      exact ⟨by simp [resultModel?, mkBlockModel, List.headI],
        by simp [resultModel?, mkBlockModel, List.headI, hcount]⟩
  · intro input h
    unfold parseModels
    suffices hgen : ∀ bs : List Str, (∀ b ∈ bs, parseBlock b ≠ .panic) →
        parseBlocks bs = some (bs.filterMap (fun b => resultModel? (parseBlock b))) by
      exact hgen _ h
    intro bs
    induction bs with
    | nil => intro _; rfl
    | cons b bs ih =>
      intro hb
      have ih' := ih fun b' hb' => hb b' (List.mem_cons_of_mem b hb')
      cases hpb : parseBlock b with
      | skip => simp [parseBlocks, hpb, ih', resultModel?]
      | panic => exact absurd hpb (hb b (List.mem_cons_self b bs))
      | model m => simp [parseBlocks, hpb, ih', resultModel?]

/-- Witness for C7's amended theorem: the third conjunct applied to the
concrete block `"User\na b\nxx"` (one two-token field line, one dropped
one-token line). -/
theorem parse_one_model_per_block_witness :
    2 ≤ (splitLines "User\na b\nxx".data).length ∧
    trimSpace (splitLines "User\na b\nxx".data).headI ≠ [] ∧
    (resultModel? (parseBlock "User\na b\nxx".data)).map
        (fun m => m.Fields.length) =
      some ((splitLines "User\na b\nxx".data).tail.countP
        (fun l => decide (2 ≤ (fields l).length))) :=
  ⟨by decide, by decide,
    (parse_one_model_per_block.2.2.1 "User\na b\nxx".data
      (by decide) (by decide)).2⟩

/-! ## C9: `toSnakeCase` is idempotent -/

theorem snakeRest_eq_of_no_up {l : Str} (h : ∀ c ∈ l, isUpAZ c = false) :
    snakeRest l = l := by
  induction l with
  | nil => rfl
  | cons c rest ih =>
    have hc := h c (List.mem_cons_self c rest)
    simp only [snakeRest, hc, if_neg, Bool.false_eq_true, not_false_iff,
      List.singleton_append, List.cons.injEq, true_and]
    exact ih fun d hd => h d (List.mem_cons_of_mem c hd)

theorem map_toLower_idem (l : Str) :
    (l.map Char.toLower).map Char.toLower = l.map Char.toLower := by
  induction l with
  | nil => rfl
  | cons c rest ih => simp [toLower_idem, ih]

/-- C9 (confirmed).  `toSnakeCase` is idempotent: a snake-cased string
contains no uppercase ASCII letter, so the second pass inserts no
underscore and lowercasing is the identity on it. -/
theorem toSnakeCase_idempotent (s : Str) :
    toSnakeCase (toSnakeCase s) = toSnakeCase s := by
  cases s with
  | nil => rfl
  | cons c rest =>
    have hrest : snakeRest ((snakeRest rest).map Char.toLower) =
        (snakeRest rest).map Char.toLower := by
      refine snakeRest_eq_of_no_up fun d hd => ?_
      rcases List.mem_map.mp hd with ⟨e, _, rfl⟩
      exact isUpAZ_toLower e
    simp only [toSnakeCase, List.map_cons, hrest, toLower_idem,
      map_toLower_idem]

/-! ## C3: the staging tree is not removed on every exit path -/

/-- C3 (code bug).  The claim (and spec section 3) says the staging
directory is recursively removed on every exit path, including render
and write failures.  The success and archive-failure paths do remove it
(first two conjuncts), but a file-write failure goes through
`log.Fatalf` → `os.Exit`, which skips the deferred `os.RemoveAll`: the
process dies with the staging tree left behind (last two conjuncts). -/
theorem staging_dir_leaked_on_write_failure :
    (handleGenerate envAllOk true []).tempDirRemoved = true ∧
    (handleGenerate envAllOk false []).tempDirRemoved = true ∧
    (handleGenerate envWriteFail true []).processAlive = false ∧
    (handleGenerate envWriteFail true []).tempDirRemoved = false :=
  ⟨by decide, by decide, by decide, by decide⟩

/-! ## C4: a render failure kills the hosting process -/

/-- C4 (code bug).  The claim (and spec sections 4.3, 7) says a
template-render or file-write failure aborts only the current request
and surfaces a structured error, never terminating the hosting process.
In the code `generateFile` calls `log.Fatalf` on a render failure: the
process terminates and no response is produced (first two conjuncts) —
unlike the archive-failure path, which does answer with a structured
error and keeps the process alive (last two conjuncts). -/
theorem render_failure_terminates_process :
    (handleGenerate envRenderFail true []).processAlive = false ∧
    (handleGenerate envRenderFail true []).response = none ∧
    (handleGenerate envAllOk false []).processAlive = true ∧
    (handleGenerate envAllOk false []).response = some .errorJson :=
  ⟨by decide, by decide, by decide, by decide⟩

/-! ## Path distinctness of the generated file set -/

/-- Two appends are distinct when their prefixes differ within the first
`n` characters. -/
theorem append_ne_append {a b x y : Str} (n : Nat) (hna : n ≤ a.length)
    (hnb : n ≤ b.length) (hab : a.take n ≠ b.take n) : a ++ x ≠ b ++ y := by
  intro h
  apply hab
  have h1 : (a ++ x).take n = a.take n := by
    rw [List.take_append_eq_append_take, Nat.sub_eq_zero_of_le hna,
      List.take_zero, List.append_nil]
  have h2 : (b ++ y).take n = b.take n := by
    rw [List.take_append_eq_append_take, Nat.sub_eq_zero_of_le hnb,
      List.take_zero, List.append_nil]
  rw [← h1, h, h2]

/-- An append whose prefix disagrees with a literal is not that literal. -/
theorem append_ne_lit {a x q : Str} (h : q.take a.length ≠ a) :
    a ++ x ≠ q := by
  intro he
  apply h
  rw [← he, List.take_left]

theorem pkgm_ne_pkgh (x y : Str) :
    "pkg/models/".data ++ x ≠ "pkg/handlers/".data ++ y :=
  append_ne_append 5 (by decide) (by decide) (by decide)

theorem pkgm_ne_api (x y : Str) :
    "pkg/models/".data ++ x ≠ "api/".data ++ y :=
  append_ne_append 1 (by decide) (by decide) (by decide)

theorem pkgh_ne_api (x y : Str) :
    "pkg/handlers/".data ++ x ≠ "api/".data ++ y :=
  append_ne_append 1 (by decide) (by decide) (by decide)

/-- Equal per-model paths of the same kind force equal snake names. -/
theorem snake_of_eq_model_path {pre suf s t : Str}
    (h : pre ++ (s ++ suf) = pre ++ (t ++ suf)) : s = t :=
  List.append_cancel_right (List.append_cancel_left h)

theorem modelFiles_nodup (m : Model) : (modelFiles m).Nodup := by
  simp only [modelFiles, List.nodup_cons, List.mem_cons,
    List.not_mem_nil, or_false, List.nodup_nil, and_true, not_or]
  exact ⟨⟨pkgm_ne_pkgh _ _, pkgm_ne_api _ _⟩, pkgh_ne_api _ _, not_false⟩

theorem modelFile_ne_proj {m : Model} {p q : Str}
    (hp : p ∈ modelFiles m) (hq : q ∈ projPaths) : p ≠ q := by
  simp only [modelFiles, List.mem_cons, List.not_mem_nil, or_false] at hp
  simp only [projPaths, List.mem_cons, List.not_mem_nil, or_false] at hq
  rcases hp with rfl | rfl | rfl <;>
    rcases hq with rfl | rfl | rfl | rfl | rfl | rfl | rfl | rfl | rfl | rfl <;>
    exact append_ne_lit (by decide)

theorem modelFiles_disjoint {m m' : Model}
    (hs : m.SnakeName ≠ m'.SnakeName) {p q : Str}
    (hp : p ∈ modelFiles m) (hq : q ∈ modelFiles m') : p ≠ q := by
  simp only [modelFiles, List.mem_cons, List.not_mem_nil, or_false] at hp hq
  rcases hp with rfl | rfl | rfl <;> rcases hq with rfl | rfl | rfl
  · exact fun h => hs (snake_of_eq_model_path h)
  · exact pkgm_ne_pkgh _ _
  · exact pkgm_ne_api _ _
  · exact fun h => (pkgm_ne_pkgh _ _) h.symm
  · exact fun h => hs (snake_of_eq_model_path h)
  · exact pkgh_ne_api _ _
  · exact fun h => (pkgm_ne_api _ _) h.symm
  · exact fun h => (pkgh_ne_api _ _) h.symm
  · exact fun h => hs (snake_of_eq_model_path h)

theorem mem_modelWrites {p : Str} :
    ∀ {ms : List Model}, p ∈ modelWrites ms ↔ ∃ m ∈ ms, p ∈ modelFiles m := by
  intro ms
  induction ms with
  | nil => simp [modelWrites]
  | cons m ms ih => simp [modelWrites, ih, List.mem_append]

theorem modelWrites_nodup {ms : List Model}
    (h : (ms.map Model.SnakeName).Nodup) : (modelWrites ms).Nodup := by
  induction ms with
  | nil => simp [modelWrites]
  | cons m ms ih =>
    rw [List.map_cons, List.nodup_cons] at h
    show (modelFiles m ++ modelWrites ms).Nodup
    rw [List.nodup_append]
    refine ⟨modelFiles_nodup m, ih h.2, ?_⟩
    rw [List.disjoint_left]
    intro a ha hmem
    obtain ⟨m', hm', ha'⟩ := mem_modelWrites.mp hmem
    have hs : m.SnakeName ≠ m'.SnakeName := fun he =>
      h.1 (he ▸ List.mem_map_of_mem Model.SnakeName hm')
    exact modelFiles_disjoint hs ha ha' rfl

theorem allWrites_nodup {ms : List Model}
    (h : (ms.map Model.SnakeName).Nodup) : (allWrites ms).Nodup := by
  rw [allWrites, List.nodup_append]
  refine ⟨modelWrites_nodup h, by decide, ?_⟩
  rw [List.disjoint_left]
  intro a ha hq
  obtain ⟨m', _, ha'⟩ := mem_modelWrites.mp ha
  exact modelFile_ne_proj ha' hq rfl

theorem modelWrites_length (ms : List Model) :
    (modelWrites ms).length = 3 * ms.length := by
  induction ms with
  | nil => rfl
  | cons m ms ih =>
    show (modelFiles m ++ modelWrites ms).length = 3 * (ms.length + 1)
    rw [List.length_append, ih]
    simp [modelFiles]
    ring

theorem allWrites_length (ms : List Model) :
    (allWrites ms).length = 10 + 3 * ms.length := by
  rw [allWrites, List.length_append, modelWrites_length]
  simp [projPaths]
  omega

/-! ## Cleaning is the identity on slash-free model paths -/

theorem splitSlash_append_slash :
    ∀ (a : Str), ('/' : Char) ∉ a →
      ∀ x : Str, splitSlash (a ++ '/' :: x) = a :: splitSlash x := by
  intro a
  induction a with
  | nil =>
    intro _ x
    simp [splitSlash]
  | cons c a' ih =>
    intro ha x
    have hc : c ≠ '/' := fun h => ha (h ▸ List.mem_cons_self c a')
    have ih' := ih (fun h => ha (List.mem_cons_of_mem c h)) x
    simp only [List.cons_append, splitSlash]
    rw [if_neg hc, List.append_eq, ih']

theorem splitSlash_no_slash :
    ∀ {y : Str}, ('/' : Char) ∉ y → splitSlash y = [y] := by
  intro y
  induction y with
  | nil => intro _; rfl
  | cons c y' ih =>
    intro hy
    have hc : c ≠ '/' := fun h => hy (h ▸ List.mem_cons_self c y')
    have ih' := ih fun h => hy (List.mem_cons_of_mem c h)
    simp [splitSlash, hc, ih']

/-- A component that is non-empty and neither `.` nor `..` survives
cleaning unchanged. -/
theorem cleanRel_plain :
    ∀ (comps : List Str),
      (∀ c ∈ comps, c ≠ [] ∧ c ≠ ['.'] ∧ c ≠ ['.', '.']) →
      ∀ stack : List Str,
        cleanRel stack comps = some (stack.reverse ++ comps) := by
  intro comps
  induction comps with
  | nil => intro _ stack; simp [cleanRel]
  | cons comp rest ih =>
    intro h stack
    have hc := h comp (List.mem_cons_self comp rest)
    have ih' := ih (fun c hcm => h c (List.mem_cons_of_mem comp hcm)) (comp :: stack)
    simp only [cleanRel, hc.1, hc.2.1, hc.2.2, or_self, if_false, ih',
      List.reverse_cons, List.append_assoc, List.singleton_append]

/-- Any suffix makes a component at least three characters long plain. -/
theorem plain_of_len3 {z : Str} (hz : 3 ≤ z.length) :
    z ≠ [] ∧ z ≠ ['.'] ∧ z ≠ ['.', '.'] := by
  refine ⟨?_, ?_, ?_⟩ <;> rintro rfl <;> simp at hz

theorem joinClean_pkgm {s : Str} (hs : ('/' : Char) ∉ s) :
    joinClean ("pkg/models/".data ++ (s ++ ".go".data)) =
      some ("pkg/models/".data ++ (s ++ ".go".data)) := by
  have hz : ('/' : Char) ∉ s ++ ".go".data := by
    intro h
    rcases List.mem_append.mp h with h | h
    · exact hs h
    · exact absurd h (by decide)
  have h1 : splitSlash ("pkg/models/".data ++ (s ++ ".go".data)) =
      ["pkg".data, "models".data, s ++ ".go".data] := by
    show splitSlash ("pkg".data ++ '/' ::
      ("models".data ++ '/' :: (s ++ ".go".data))) = _
    rw [splitSlash_append_slash _ (by decide),
      splitSlash_append_slash _ (by decide), splitSlash_no_slash hz]
  unfold joinClean
  rw [h1, cleanRel_plain _ ?plain []]
  · rfl
  case plain =>
    intro c hcm
    simp only [List.mem_cons, List.not_mem_nil, or_false] at hcm
    rcases hcm with rfl | rfl | rfl
    · exact by decide
    · exact by decide
    · exact plain_of_len3 (by simp)

theorem joinClean_pkgh {s : Str} (hs : ('/' : Char) ∉ s) :
    joinClean ("pkg/handlers/".data ++ (s ++ ".go".data)) =
      some ("pkg/handlers/".data ++ (s ++ ".go".data)) := by
  have hz : ('/' : Char) ∉ s ++ ".go".data := by
    intro h
    rcases List.mem_append.mp h with h | h
    · exact hs h
    · exact absurd h (by decide)
  have h1 : splitSlash ("pkg/handlers/".data ++ (s ++ ".go".data)) =
      ["pkg".data, "handlers".data, s ++ ".go".data] := by
    show splitSlash ("pkg".data ++ '/' ::
      ("handlers".data ++ '/' :: (s ++ ".go".data))) = _
    rw [splitSlash_append_slash _ (by decide),
      splitSlash_append_slash _ (by decide), splitSlash_no_slash hz]
  unfold joinClean
  rw [h1, cleanRel_plain _ ?plain []]
  · rfl
  case plain =>
    intro c hcm
    simp only [List.mem_cons, List.not_mem_nil, or_false] at hcm
    rcases hcm with rfl | rfl | rfl
    · exact by decide
    · exact by decide
    · exact plain_of_len3 (by simp)

theorem joinClean_api {s : Str} (hs : ('/' : Char) ∉ s) :
    joinClean ("api/".data ++ (s ++ ".yaml".data)) =
      some ("api/".data ++ (s ++ ".yaml".data)) := by
  have hz : ('/' : Char) ∉ s ++ ".yaml".data := by
    intro h
    rcases List.mem_append.mp h with h | h
    · exact hs h
    · exact absurd h (by decide)
  have h1 : splitSlash ("api/".data ++ (s ++ ".yaml".data)) =
      ["api".data, s ++ ".yaml".data] := by
    show splitSlash ("api".data ++ '/' :: (s ++ ".yaml".data)) = _
    rw [splitSlash_append_slash _ (by decide), splitSlash_no_slash hz]
  unfold joinClean
  rw [h1, cleanRel_plain _ ?plain []]
  · rfl
  case plain =>
    intro c hcm
    simp only [List.mem_cons, List.not_mem_nil, or_false] at hcm
    rcases hcm with rfl | rfl
    · exact by decide
    · exact plain_of_len3 (by simp)

/-- Each of the ten fixed paths is already clean. -/
theorem joinClean_proj : ∀ p ∈ projPaths, joinClean p = some p := by decide

/-- For models whose snake names contain no separator, every write
target is already clean. -/
theorem allWrites_clean {ms : List Model}
    (h : ∀ m ∈ ms, ('/' : Char) ∉ m.SnakeName) :
    ∀ p ∈ allWrites ms, joinClean p = some p := by
  intro p hp
  rw [allWrites, List.mem_append] at hp
  rcases hp with hp | hp
  · obtain ⟨m, hm, hp'⟩ := mem_modelWrites.mp hp
    have hs := h m hm
    simp only [modelFiles, List.mem_cons, List.not_mem_nil, or_false] at hp'
    rcases hp' with rfl | rfl | rfl
    · exact joinClean_pkgm hs
    · exact joinClean_pkgh hs
    · exact joinClean_api hs
  · exact joinClean_proj p hp

/-! ## Writing fresh distinct paths -/

/-- With an always-succeeding environment and fresh, pairwise-distinct
paths that are already clean (`filepath.Join` leaves them unchanged),
the write sequence appends exactly one entry per path, with the rendered
bytes as contents. -/
theorem writeSeq_fresh (render : Str → Str) :
    ∀ (ps : List Str) (fs : List (Str × Str)), ps.Nodup →
      (∀ p ∈ ps, joinClean p = some p) →
      (∀ p ∈ ps, p ∉ fs.map Prod.fst) →
      writeSeq (pureEnv render) ps fs =
        .ok (fs ++ ps.map (fun p => (p, render p))) := by
  intro ps
  induction ps with
  | nil => intro fs _ _ _; simp [writeSeq]
  | cons p ps ih =>
    intro fs hnd hclean hfresh
    rw [List.nodup_cons] at hnd
    have hp : p ∉ fs.map Prod.fst := hfresh p (List.mem_cons_self p ps)
    have hpc : joinClean p = some p := hclean p (List.mem_cons_self p ps)
    have hstep : writeSeq (pureEnv render) (p :: ps) fs =
        writeSeq (pureEnv render) ps (fs ++ [(p, render p)]) := by
      simp [writeSeq, generateFile, pureEnv, fsWrite, hp, hpc]
    rw [hstep, ih (fs ++ [(p, render p)]) hnd.2
      (fun q hq => hclean q (List.mem_cons_of_mem p hq)) ?fresh]
    · simp
    case fresh =>
      intro q hq
      rw [List.map_append, List.mem_append]
      rintro (hin | hin)
      · exact hfresh q (List.mem_cons_of_mem p hq) hin
      · simp at hin
        exact hnd.1 (hin ▸ hq)

/-! ## C5: archive entry count -/

/-- C5 (counterexample).  The claim predicts `10 + 3 × N` archive
entries for every parsed model list of size `N`.  Two refutations.
Parsing two blocks both named `User` gives `N = 2`, but both models
derive the same snake name, so the second model's three files overwrite
the first's: the staging tree — and so the archive — holds 13 files,
not 16.  Parsing the blocks `a` and `b/../a` gives `N = 2` with
*distinct* snake names, yet `filepath.Join`'s path cleaning resolves
`pkg/models/b/../a.go` to `pkg/models/a.go` (likewise the handler and
api files), so the second model's writes again land on the first's
files: 13 entries, not 16. -/
theorem duplicate_model_names_fewer_entries :
    (parseModels "User\nName string\n\nUser\nAge int".data).map
      List.length = some 2 ∧
    (parseModels "User\nName string\n\nUser\nAge int".data).map
      (fun ms => outcomeSize (generateProjectStructure envAllOk ms)) =
      some (some 13) ∧
    (parseModels "a\nf t\n\nb/../a\nf t".data).map
      (fun ms => ms.map Model.SnakeName) =
      some ["a".data, "b/../a".data] ∧
    (parseModels "a\nf t\n\nb/../a\nf t".data).map
      (fun ms => outcomeSize (generateProjectStructure envAllOk ms)) =
      some (some 13) ∧
    (13 : Nat) ≠ 10 + 3 * 2 :=
  ⟨by decide, by decide, by decide, by decide, by decide⟩

/-- C5 (amended).  For a parsed model list whose snake names are
pairwise distinct and contain no path separator `/` — so that
`filepath.Join`'s cleaning leaves every write target unchanged and the
targets are pairwise distinct on disk — the scaffold completes and the
staging tree — whose regular files are exactly the archive's entries
(see the archive-builder theorem) — holds exactly `10 + 3 × N` files,
one per write target, and every body is the renderer's (non-empty)
output.  Duplicate snake names, or names with `/` whose cleaned paths
alias other targets, overwrite files and produce fewer entries. -/
theorem archive_entry_count_with_distinct_snake_names :
    ∀ (ms : List Model) (render : Str → Str),
      (ms.map Model.SnakeName).Nodup →
      (∀ m ∈ ms, ('/' : Char) ∉ m.SnakeName) →
      (∀ p ∈ allWrites ms, render p ≠ []) →
      generateProjectStructure (pureEnv render) ms =
        .ok ((allWrites ms).map (fun p => (p, render p))) ∧
      ((allWrites ms).map (fun p => (p, render p))).length =
        10 + 3 * ms.length ∧
      (∀ e ∈ (allWrites ms).map (fun p => (p, render p)), e.2 ≠ []) := by
  intro ms render hnd hslash hne
  refine ⟨?_, ?_, ?_⟩
  · unfold generateProjectStructure
    rw [writeSeq_fresh render (allWrites ms) [] (allWrites_nodup hnd)
      (allWrites_clean hslash) (by simp)]
    simp
  · rw [List.length_map, allWrites_length]
  · intro e he
    obtain ⟨p, hp, rfl⟩ := List.mem_map.mp he
    exact hne p hp

/-- Witness for C5's amended theorem: the single parsed model `Book`
with a constant renderer. -/
theorem archive_entry_count_witness :
    ((((parseModels "Book\nTitle string".data).getD []).map
      Model.SnakeName).Nodup) ∧
    (∀ m ∈ (parseModels "Book\nTitle string".data).getD [],
      ('/' : Char) ∉ m.SnakeName) ∧
    (∀ p ∈ allWrites ((parseModels "Book\nTitle string".data).getD []),
      (fun _ : Str => ['x']) p ≠ ([] : Str)) ∧
    ((allWrites ((parseModels "Book\nTitle string".data).getD [])).map
        (fun p => (p, (fun _ : Str => ['x']) p))).length =
      10 + 3 * ((parseModels "Book\nTitle string".data).getD []).length :=
  ⟨by decide, by decide, by decide,
    (archive_entry_count_with_distinct_snake_names
      ((parseModels "Book\nTitle string".data).getD [])
      (fun _ : Str => ['x']) (by decide) (by decide) (by decide)).2.1⟩

/-! ## C10: a block whose field lines are all dropped still yields a
model and its three files -/

theorem lineToField_eq_none_of_dropped {l : Str}
    (h : trimSpace l = [] ∨ (fields l).length < 2) : lineToField l = none := by
  rcases h with h | h
  · unfold lineToField
    rw [if_pos h]
  · have hs := lineToField_isSome l
    cases hopt : lineToField l with
    | none => rfl
    | some v =>
      rw [hopt, Option.isSome_some] at hs
      have h2 := of_decide_eq_true hs.symm
      omega

/-- C10 (counterexample).  The claim says a definition block with two or
more lines always yields a Model even when every field line is dropped.
The block `"\nx"` has two lines and its only field line (single token)
is dropped, yet no Model results: the first line is empty, so the parser
panics (Go line 243) instead of yielding a degenerate model. -/
theorem two_line_block_all_dropped_no_model :
    (splitLines "\nx".data).length = 2 ∧
    (∀ l ∈ (splitLines "\nx".data).tail,
      trimSpace l = [] ∨ (fields l).length < 2) ∧
    parseBlock "\nx".data = .panic ∧
    parseModels "\nx".data = none :=
  ⟨by decide, by decide, by decide, by decide⟩

/-- C10 (amended).  A block with two or more lines and a non-empty
(trimmed) first line yields exactly one model even when every field line
is dropped (each empty or with fewer than two tokens): the model's name
is the trimmed first line and its field sequence is empty; and provided
the model's snake name contains no path separator `/`, the scaffolder
still writes the three per-model files derived from it, ahead of the ten
fixed files.  (With an empty first line the parser panics instead — the
C1 defect; with `/` in the name, `filepath.Join`'s cleaning can collapse
the per-model paths onto other files, e.g. a model named
`../config/config` writes onto `pkg/config/config.go`.) -/
theorem block_with_all_field_lines_dropped :
    ∀ (b : Str) (render : Str → Str),
      2 ≤ (splitLines b).length →
      trimSpace (splitLines b).headI ≠ [] →
      (∀ l ∈ (splitLines b).tail, trimSpace l = [] ∨ (fields l).length < 2) →
      (resultModel? (parseBlock b)).map (fun m => (m.Name, m.Fields)) =
        some (trimSpace (splitLines b).headI, ([] : List ModelField)) ∧
      (∀ m, resultModel? (parseBlock b) = some m →
        ('/' : Char) ∉ m.SnakeName →
        generateProjectStructure (pureEnv render) [m] =
          .ok ((modelFiles m ++ projPaths).map (fun p => (p, render p)))) := by
  intro b render hlen hname hdrop
  rcases hsl : splitLines b with _ | ⟨l0, _ | ⟨l1, rest⟩⟩
  · rw [hsl] at hlen
    simp at hlen
  · rw [hsl] at hlen
    simp at hlen
  · rw [hsl] at hname hdrop
    simp only [List.headI] at hname
    simp only [List.tail_cons] at hdrop
    have hfnil : (l1 :: rest).filterMap lineToField = [] :=
      List.filterMap_eq_nil_iff.mpr fun l hl =>
        lineToField_eq_none_of_dropped (hdrop l hl)
    rw [parseBlock_two_lines hsl, if_neg hname]
    constructor
    · simp [resultModel?, mkBlockModel, hfnil, List.headI]
    · intro m hm hslash
      simp only [resultModel?, Option.some.injEq] at hm
      subst hm
      have hnd : ([mkBlockModel (trimSpace l0) (l1 :: rest)].map
          Model.SnakeName).Nodup := by simp
      have hcl := @allWrites_clean [mkBlockModel (trimSpace l0) (l1 :: rest)]
        (fun m' hm' => by
          rw [List.mem_singleton] at hm'
          subst hm'
          exact hslash)
      unfold generateProjectStructure
      rw [writeSeq_fresh render _ [] (allWrites_nodup hnd) hcl (by simp)]
      show _ = GenOutcome.ok ((modelFiles _ ++ projPaths).map _)
      simp [allWrites, modelWrites]

/-- Witness for C10: the block `"User\nx"`, whose only field line has a
single token and is dropped; both conjuncts applied, the second at the
concrete model yielded by the block. -/
theorem block_with_all_field_lines_dropped_witness :
    2 ≤ (splitLines "User\nx".data).length ∧
    trimSpace (splitLines "User\nx".data).headI ≠ [] ∧
    (∀ l ∈ (splitLines "User\nx".data).tail,
      trimSpace l = [] ∨ (fields l).length < 2) ∧
    (resultModel? (parseBlock "User\nx".data)).map
        (fun m => (m.Name, m.Fields)) =
      some (trimSpace (splitLines "User\nx".data).headI,
        ([] : List ModelField)) ∧
    resultModel? (parseBlock "User\nx".data) =
      some (mkBlockModel "User".data ["x".data]) ∧
    ('/' : Char) ∉ (mkBlockModel "User".data ["x".data]).SnakeName ∧
    generateProjectStructure (pureEnv (fun _ : Str => ['x']))
        [mkBlockModel "User".data ["x".data]] =
      .ok ((modelFiles (mkBlockModel "User".data ["x".data]) ++ projPaths).map
        (fun p => (p, (fun _ : Str => ['x']) p))) :=
  ⟨by decide, by decide, by decide,
    (block_with_all_field_lines_dropped "User\nx".data (fun _ : Str => ['x'])
      (by decide) (by decide) (by decide)).1,
    by decide, by decide,
    (block_with_all_field_lines_dropped "User\nx".data (fun _ : Str => ['x'])
      (by decide) (by decide) (by decide)).2
      (mkBlockModel "User".data ["x".data]) (by decide) (by decide)⟩

/-! ## C6: the archive is exactly the regular files -/

mutual

/-- Walking one node yields exactly its regular files (with their
slash-joined, root-relative names and verbatim contents), or an error
when a failure occurs anywhere under it. -/
theorem walkNode_eq (pre : Str) (nd : FSNode) :
    walkNode pre nd =
      if noErrNode nd then .ok (filesOfNode pre nd) else .error () := by
  cases nd with
  | file n d ok => cases ok <;> simp [walkNode, noErrNode, filesOfNode]
  | dir n cs ok =>
    cases ok
    · simp [walkNode, noErrNode]
    · rw [show walkNode pre (.dir n cs true) =
          walkList (pre ++ n ++ ['/']) cs from rfl,
        walkList_eq (pre ++ n ++ ['/']) cs]
      cases h : noErrList cs <;>
        simp [noErrNode, filesOfNode, h]

/-- Walking a sibling list yields exactly its regular files in walk
order, or an error when a failure occurs anywhere under it. -/
theorem walkList_eq (pre : Str) (ns : List FSNode) :
    walkList pre ns =
      if noErrList ns then .ok (filesOfList pre ns) else .error () := by
  cases ns with
  | nil => simp [walkList, noErrList, filesOfList]
  | cons nd ns =>
    rw [show walkList pre (nd :: ns) =
        (match walkNode pre nd with
         | .error e => .error e
         | .ok es =>
           match walkList pre ns with
           | .error e => .error e
           | .ok rest => .ok (es ++ rest)) from rfl,
      walkNode_eq pre nd, walkList_eq pre ns]
    cases hn : noErrNode nd <;> cases hl : noErrList ns <;>
      simp [noErrList, filesOfList, hn, hl]

end

/-- C6 (confirmed).  `createZip` returns exactly the regular files under
the staging root as its entry list — entry names are the root-relative
paths joined with forward slashes, no entry is produced for a directory,
and each entry's contents are the source file's bytes verbatim — when no
I/O failure occurs; any failure while creating the target file, walking
a directory, creating an entry, or copying bytes makes the whole call
return an error instead of a partial archive. -/
theorem createZip_exact_regular_files :
    ∀ (createOk : Bool) (roots : List FSNode),
      createZip createOk roots =
        if createOk && noErrList roots then
          .ok (filesOfList [] roots)
        else .error () := by
  intro createOk roots
  cases createOk
  · simp [createZip]
  · rw [show createZip true roots = walkList [] roots from rfl,
      walkList_eq [] roots]
    simp

end GinGen
